import Mathlib

/-!
Verification development for the `useSortBy` plugin hook
(src/plugin-hooks/useSortBy.js) of the react-table repository.

The development shallowly embeds the two cores of the file:

* the sort-state reducer `toggleSortBy` (src lines 85-168), and
* the row ordering engine `sortedRows` / `sortData` (src lines 216-281),

and proves the behavioural properties claimed for them.  JavaScript
values are modelled as follows: cell values reaching comparators are
`Option Int` (`none` models `undefined`); the optional `desc` argument
is `Option Bool` (`none` models both `undefined` and `null`, exactly the
values excluded by `hasDescDefined`); a lookup that would make the
JavaScript throw (a criterion whose column is missing from `columns`)
makes the embedded function return `none`.
-/

namespace ReactTable

/-- A cell value as seen by a comparator; `none` models `undefined`. -/
abbrev Value := Option Int

/-- A comparator `(valueA, valueB, desc) → number` (negative / zero / positive). -/
abbrev CmpFn := Value → Value → Bool → Int

/-- A registry mapping sort-type names to comparators (`sortTypes` objects). -/
abbrev CmpRegistry := String → Option CmpFn

/-- The `sortType` option of a column: absent, a comparator function, or a
registry key (src propTypes allow `string | func`). -/
inductive SortTypeSpec where
  | undef : SortTypeSpec
  | fn (f : CmpFn) : SortTypeSpec
  | key (s : String) : SortTypeSpec

/-- One active sort criterion `{ id, desc }`. -/
structure SortCriterion where
  id : String
  desc : Bool
deriving DecidableEq

/-- The column fields read by the plugin: `id`, `sortType`, `sortDescFirst`
and `sortInverted`.  A missing boolean option is falsy in the source, hence
modelled as `false`. -/
structure ColumnDef where
  id : String
  sortType : SortTypeSpec
  sortDescFirst : Bool
  sortInverted : Bool

/-- The configuration flags consumed by the reducer. -/
structure SortConfig where
  disableMultiSort : Bool
  disableSortRemove : Bool
  disableMultiRemove : Bool
deriving DecidableEq

/-- The four action categories of the reducer; `toggle` carries the existing
criterion found for the column (the source only classifies `toggle` when
`existingSortBy` is present, in both branches). -/
inductive SortAction where
  | replace : SortAction
  | add : SortAction
  | toggle (existing : SortCriterion) : SortAction
  | remove : SortAction
deriving DecidableEq

/-- JavaScript `Array.prototype.findIndex`: index of the first match, `-1`
when there is none (src line 95). -/
def findIndexInt (p : α → Bool) : List α → Int
  | [] => -1
  | a :: l =>
    if p a then 0
    else
      let r := findIndexInt p l
      if r = -1 then -1 else r + 1

/-- `sortBy.find(d => d.id === columnID)` (src line 94). -/
def findCriterion (sortBy : List SortCriterion) (columnID : String) :
    Option SortCriterion :=
  sortBy.find? (fun d => d.id == columnID)

/-- Base action classification (src lines 100-118): with multi-sort enabled
and `multi` requested, `toggle` on an existing criterion else `add`;
otherwise `replace` unless the first criterion found for the column sits at
index `sortBy.length - 1`, in which case `toggle`. -/
def baseAction (cfg : SortConfig) (sortBy : List SortCriterion)
    (columnID : String) (multi : Bool) : SortAction :=
  let existingSortBy := findCriterion sortBy columnID
  let existingIndex := findIndexInt (fun d => d.id == columnID) sortBy
  if !cfg.disableMultiSort && multi then
    match existingSortBy with
    | some e => SortAction.toggle e
    | none => SortAction.add
  else
    if existingIndex ≠ (sortBy.length : Int) - 1 then SortAction.replace
    else
      match existingSortBy with
      | some e => SortAction.toggle e
      | none => SortAction.replace

/-- Downgrade of `toggle` to `remove` (src lines 120-131).  The source
condition `((existingSortBy && (existingSortBy.desc && !sortDescFirst)) ||
(!existingSortBy.desc && sortDescFirst))` is evaluated only when the action
is `toggle`, so `existingSortBy` is present and the condition reduces to the
disjunction written below. -/
def finalAction (cfg : SortConfig) (sortDescFirst : Bool)
    (hasDescDefined : Bool) (multi : Bool) : SortAction → SortAction
  | SortAction.toggle e =>
    if !cfg.disableSortRemove && !hasDescDefined &&
        (if multi then !cfg.disableMultiRemove else true) &&
        ((e.desc && !sortDescFirst) || (!e.desc && sortDescFirst)) then
      SortAction.remove
    else SortAction.toggle e
  | a => a

/-- Application of the resolved action (src lines 133-161). -/
def applyAction (sortBy : List SortCriterion) (columnID : String)
    (desc : Option Bool) (sortDescFirst : Bool) : SortAction → List SortCriterion
  | SortAction.replace => [SortCriterion.mk columnID (desc.getD sortDescFirst)]
  | SortAction.add => sortBy ++ [SortCriterion.mk columnID (desc.getD sortDescFirst)]
  | SortAction.toggle e =>
    sortBy.map (fun d =>
      if d.id == columnID then SortCriterion.mk d.id (desc.getD (!e.desc)) else d)
  | SortAction.remove => sortBy.filter (fun d => d.id != columnID)

/-- The sort-state reducer (src lines 85-168).  Returns `none` when
`columns.find(d => d.id === columnID)` fails, where the JavaScript throws
while destructuring `sortDescFirst`. -/
def toggleSortBy (cfg : SortConfig) (columns : List ColumnDef)
    (sortBy : List SortCriterion) (columnID : String) (desc : Option Bool)
    (multi : Bool) : Option (List SortCriterion) :=
  match columns.find? (fun d => d.id == columnID) with
  | none => none
  | some column =>
    some (applyAction sortBy columnID desc column.sortDescFirst
      (finalAction cfg column.sortDescFirst desc.isSome multi
        (baseAction cfg sortBy columnID multi)))

/-- A row of the forest: its `values` mapping (an association list from
column ids to cell payloads) and its `subRows`. -/
inductive Row where
  | mk (values : List (String × Int)) (subRows : List Row)

/-- Projection of the `values` mapping. -/
def Row.values : Row → List (String × Int)
  | Row.mk v _ => v

/-- Projection of `subRows`. -/
def Row.subRows : Row → List Row
  | Row.mk _ s => s

@[simp] theorem Row.values_mk (v : List (String × Int)) (s : List Row) :
    (Row.mk v s).values = v := rfl

@[simp] theorem Row.subRows_mk (v : List (String × Int)) (s : List Row) :
    (Row.mk v s).subRows = s := rfl

/-- Lookup of a column id inside a `values` mapping; `none` models reading an
absent property (`undefined`). -/
def lookupValue (values : List (String × Int)) (id : String) : Value :=
  (values.find? (fun p => p.1 == id)).map (fun p => p.2)

/-- JavaScript `row.values[id]` (src line 249). -/
def rowValue (r : Row) (id : String) : Value :=
  lookupValue r.values id

/-- Comparator resolution (src lines 241-245): the column `sortType` itself
when it is a function (`isFunction` of utils returns a function argument and
`undefined` otherwise), else the user registry entry, else the built-in
registry entry, else the built-in `alphanumeric` default.  An absent
`sortType` finds no string key in either registry and falls through to the
default. -/
def resolveSortMethod (userSortTypes : CmpRegistry) (builtinSortTypes : CmpRegistry)
    (alphanumeric : CmpFn) : SortTypeSpec → CmpFn
  | SortTypeSpec.fn f => f
  | SortTypeSpec.key s =>
    match userSortTypes s with
    | some f => f
    | none =>
      match builtinSortTypes s with
      | some f => f
      | none => alphanumeric
  | SortTypeSpec.undef => alphanumeric

/-- The per-criterion row comparator built at src lines 247-249: the resolved
sortMethod applied to the two cell values and, as direction argument,
`sort.desc`. -/
def compiledSortFn (sortMethod : CmpFn) (sort : SortCriterion) :
    Row → Row → Int :=
  fun a b => sortMethod (rowValue a sort.id) (rowValue b sort.id) sort.desc

/-- The per-criterion direction flag handed to `orderByFn` (src lines
252-261): `sort.desc` when the column sets `sortInverted`, `!sort.desc`
otherwise. -/
def compiledDirection (column : ColumnDef) (sort : SortCriterion) : Bool :=
  if column.sortInverted then sort.desc else !sort.desc

/-- Mapping over a list with a fallible step; `none` as soon as one step
fails (the JavaScript `map` callbacks at src lines 230 and 252 throw when
`columns.find` yields `undefined`). -/
def mapOrNone (f : α → Option β) : List α → Option (List β)
  | [] => some []
  | a :: l =>
    match f a, mapOrNone f l with
    | some b, some bs => some (b :: bs)
    | _, _ => none

/-- The list of per-criterion row comparators (src lines 230-250). -/
def buildSortFns (columns : List ColumnDef) (userSortTypes builtinSortTypes : CmpRegistry)
    (alphanumeric : CmpFn) (sortBy : List SortCriterion) :
    Option (List (Row → Row → Int)) :=
  mapOrNone (fun sort =>
    (columns.find? (fun d => d.id == sort.id)).map (fun column =>
      compiledSortFn
        (resolveSortMethod userSortTypes builtinSortTypes alphanumeric column.sortType)
        sort)) sortBy

/-- The list of per-criterion direction flags (src lines 252-261). -/
def buildDirections (columns : List ColumnDef) (sortBy : List SortCriterion) :
    Option (List Bool) :=
  mapOrNone (fun sort =>
    (columns.find? (fun d => d.id == sort.id)).map (fun column =>
      compiledDirection column sort)) sortBy

/-- Stable insertion of `x` into an already ordered list: `x` is placed
before the first element it weakly precedes, hence after every element equal
to it that was already present. -/
def stableInsert (le : α → α → Bool) (x : α) : List α → List α
  | [] => [x]
  | y :: ys => if le x y then x :: y :: ys else y :: stableInsert le x ys

/-- Stable sort: each element is inserted into the ordered list of the
elements that follow it, so earlier elements end up before later elements
they compare equal to. -/
def stableSort (le : α → α → Bool) : List α → List α
  | [] => []
  | x :: xs => stableInsert le x (stableSort le xs)

/-- Composite comparison over a list of (comparator, direction flag) pairs:
the first non-zero comparison decides, each comparison being negated when its
direction flag is `false`. -/
def compositeCompare {α : Type u} : List ((α → α → Int) × Bool) → α → α → Int
  | [], _, _ => 0
  | (f, dir) :: rest, a, b =>
    let r := f a b
    let oriented := if dir then r else -r
    if oriented = 0 then compositeCompare rest a b else oriented

/-- Weak order induced by the composite comparison. -/
def compositeLe {α : Type u} (fds : List ((α → α → Int) × Bool)) (a b : α) : Bool :=
  decide (compositeCompare fds a b ≤ 0)

/-- Modelled from the spec: `defaultOrderByFn` is imported from `../utils`,
which is not among the sources.  Per the spec it composes the per-criterion
comparators in list order (first non-zero wins, one direction flag per
comparator) and is stable: rows equal under every criterion keep their
original relative order; sibling arrays are rebuilt, so a new list is
returned.  Realised as a stable sort on the composite comparison. -/
def defaultOrderByFn {α : Type u} (rows : List α) (sortFns : List (α → α → Int))
    (dirs : List Bool) : List α :=
  stableSort (compositeLe (sortFns.zip dirs)) rows

theorem mem_of_mem_stableInsert {le : α → α → Bool} {x a : α} :
    ∀ {t : List α}, a ∈ stableInsert le x t → a = x ∨ a ∈ t
  | [], h => by
    simp [stableInsert] at h
    exact Or.inl h
  | y :: ys, h => by
    by_cases hle : le x y = true
    · simp [stableInsert, hle] at h
      rcases h with h | h | h
      · exact Or.inl h
      · exact Or.inr (by simp [h])
      · exact Or.inr (by simp [h])
    · simp [stableInsert, hle] at h
      rcases h with h | h
      · exact Or.inr (by simp [h])
      · rcases mem_of_mem_stableInsert h with h2 | h2
        · exact Or.inl h2
        · exact Or.inr (by simp [h2])

theorem mem_of_mem_stableSort {le : α → α → Bool} {a : α} :
    ∀ {l : List α}, a ∈ stableSort le l → a ∈ l
  | [], h => by simp [stableSort] at h
  | x :: xs, h => by
    rcases mem_of_mem_stableInsert (t := stableSort le xs) (by simpa [stableSort] using h) with
      h2 | h2
    · simp [h2]
    · exact List.mem_cons_of_mem _ (mem_of_mem_stableSort h2)

/-- The recursive ordering pass (src lines 224-273): order the level with
`orderByFn`, then re-attach to every row of the result its recursively
ordered `subRows`.  The source skips rows whose `subRows` property is absent;
such rows are modelled with `subRows = []`, on which the recursion is the
identity, so the behaviour agrees. -/
def sortData (sortFns : List (Row → Row → Int)) (dirs : List Bool)
    (rows : List Row) : List Row :=
  (defaultOrderByFn rows sortFns dirs).attach.map
    (fun x => Row.mk x.1.values (sortData sortFns dirs x.1.subRows))
termination_by sizeOf rows
decreasing_by
  rcases x with ⟨r, hr⟩
  simp only [defaultOrderByFn] at hr
  have h1 : r ∈ rows := mem_of_mem_stableSort hr
  have h2 : sizeOf r < sizeOf rows := List.sizeOf_lt_of_mem h1
  cases r with
  | mk v s =>
    simp only [Row.subRows_mk]
    simp only [Row.mk.sizeOf_spec] at h2
    omega

theorem sortData_def (sortFns : List (Row → Row → Int)) (dirs : List Bool)
    (rows : List Row) :
    sortData sortFns dirs rows =
      (defaultOrderByFn rows sortFns dirs).map
        (fun r => Row.mk r.values (sortData sortFns dirs r.subRows)) := by
  rw [sortData]
  exact List.attach_map_val _
    (fun (r : Row) => Row.mk r.values (sortData sortFns dirs r.subRows))

/-- State of the input forest after `sortData` ran (src lines 264-270).  The
level sort returns a new array, but the row objects inside it are the very
objects of the input, and `row.subRows = sortData(row.subRows)` reassigns
their `subRows` property in place; so each input row keeps its position in
the input array while its `subRows` now holds the recursively sorted
sub-forest. -/
def inputAfterSort (sortFns : List (Row → Row → Int)) (dirs : List Bool)
    (rows : List Row) : List Row :=
  rows.map (fun r => Row.mk r.values (sortData sortFns dirs r.subRows))

/-- The memoised `sortedRows` value (src lines 216-281): the input rows
unchanged under manual sorting or an empty criteria list, otherwise the
result of `sortData` with the compiled comparators and direction flags
(`none` when a criterion references a missing column, where the JavaScript
throws). -/
def sortedRows (manualSorting : Bool) (sortBy : List SortCriterion)
    (columns : List ColumnDef) (userSortTypes builtinSortTypes : CmpRegistry)
    (alphanumeric : CmpFn) (rows : List Row) : Option (List Row) :=
  if manualSorting || sortBy.isEmpty then some rows
  else
    match buildSortFns columns userSortTypes builtinSortTypes alphanumeric sortBy,
        buildDirections columns sortBy with
    | some fns, some dirs => some (sortData fns dirs rows)
    | _, _ => none

/-! Concrete fixtures used by witnesses and counterexamples. -/

/-- Numeric test comparator: compares the two cell values, an absent value
sorting first; ignores its direction argument. -/
def cmpNum : CmpFn := fun a b _ =>
  match a, b with
  | some x, some y => x - y
  | some _, none => 1
  | none, some _ => -1
  | none, none => 0

/-- Probe comparator that encodes the direction argument it receives:
`1` when invoked with `true`, `0` when invoked with `false`. -/
def dirProbe : CmpFn := fun _ _ d => if d then 1 else 0

/-- An empty comparator registry. -/
def noReg : CmpRegistry := fun _ => none

/-- Modelled from the spec: stand-in for the built-in `alphanumeric` default
comparator, which src imports from `../sortTypes` (not among the sources).
Every claim treats it abstractly; only its place in the resolution chain
matters, so a numeric comparison suffices here. -/
def alphaDflt : CmpFn := cmpNum

/-- A sortable test column on id `a`. -/
def colA : ColumnDef := ColumnDef.mk "a" (SortTypeSpec.fn cmpNum) false false

/-- A sortable test column on id `b`. -/
def colB : ColumnDef := ColumnDef.mk "b" (SortTypeSpec.fn cmpNum) false false

/-- A column on id `a` with `sortInverted` set and the probe comparator as
`sortType`. -/
def invColumn : ColumnDef := ColumnDef.mk "a" (SortTypeSpec.fn dirProbe) false true

/-- The criterion `{ id: "a", desc: false }`. -/
def critA : SortCriterion := SortCriterion.mk "a" false

/-- A configuration with every disabling flag off. -/
def cfg0 : SortConfig := SortConfig.mk false false false

/-- The comparator list the engine builds for `[critA]` over `[colA]`. -/
def fnsA : List (Row → Row → Int) := [compiledSortFn cmpNum critA]

/-- The direction flags the engine builds for `[critA]` over `[colA]`. -/
def dirsA : List Bool := [true]

/-- A leaf row carrying `n` in column `a`. -/
def leafRow (n : Int) : Row := Row.mk [("a", n)] []

/-- A one-root forest whose two children are out of order on column `a`. -/
def f0 : List Row := [Row.mk [("a", 0)] [leafRow 2, leafRow 1]]

/-- Observation of a forest: at each top-level row, the column-`a` values of
its children in order. -/
def forestShape (rows : List Row) : List (List Value) :=
  rows.map (fun r => r.subRows.map (fun c => rowValue c "a"))

/-- Evaluation helper: `sortData` on the empty forest. -/
theorem sortData_nil (sortFns : List (Row → Row → Int)) (dirs : List Bool) :
    sortData sortFns dirs [] = [] := by
  rw [sortData_def]; rfl

/-- Evaluation helper: `sortData` reorders the two-leaf forest `[2, 1]` into
`[1, 2]` under the single ascending criterion on column `a`. -/
theorem sortData_two_leaves :
    sortData fnsA dirsA [leafRow 2, leafRow 1] = [leafRow 1, leafRow 2] := by
  rw [sortData_def]
  have hd : defaultOrderByFn [leafRow 2, leafRow 1] fnsA dirsA =
      [leafRow 1, leafRow 2] := rfl
  rw [hd]
  simp only [List.map_cons, List.map_nil, leafRow, Row.values_mk, Row.subRows_mk,
    sortData_nil]

/-! Helper lemmas about the embedded JavaScript list primitives. -/

theorem findIndexInt_cons_pos {p : α → Bool} {a : α} (l : List α) (h : p a = true) :
    findIndexInt p (a :: l) = 0 := by
  simp [findIndexInt, h]

theorem findIndexInt_cons_neg {p : α → Bool} {a : α} (l : List α) (h : p a = false) :
    findIndexInt p (a :: l) =
      if findIndexInt p l = -1 then -1 else findIndexInt p l + 1 := by
  simp [findIndexInt, h]

theorem neg_one_le_findIndexInt (p : α → Bool) (l : List α) :
    -1 ≤ findIndexInt p l := by
  induction l with
  | nil => simp [findIndexInt]
  | cons a l ih =>
    by_cases hpa : p a
    · simp [findIndexInt_cons_pos l hpa]
    · rw [findIndexInt_cons_neg l (by simpa using hpa)]
      by_cases hr : findIndexInt p l = -1 <;> simp [hr] <;> try omega

theorem findIndexInt_eq_neg_one_iff {p : α → Bool} {l : List α} :
    findIndexInt p l = -1 ↔ l.find? p = none := by
  induction l with
  | nil => simp [findIndexInt]
  | cons a l ih =>
    by_cases hpa : p a
    · simp [findIndexInt_cons_pos l hpa, List.find?_cons_of_pos l hpa]
    · have hb := neg_one_le_findIndexInt p l
      rw [findIndexInt_cons_neg l (by simpa using hpa),
        List.find?_cons_of_neg l hpa, ← ih]
      by_cases hr : findIndexInt p l = -1 <;> simp [hr] <;> omega

theorem findIndexInt_getElem {p : α → Bool} {l : List α}
    (h : 0 ≤ findIndexInt p l) :
    ∃ a, l[(findIndexInt p l).toNat]? = some a ∧ p a = true := by
  induction l with
  | nil => simp [findIndexInt] at h
  | cons a l ih =>
    by_cases hpa : p a
    · exact ⟨a, by simp [findIndexInt_cons_pos l hpa], hpa⟩
    · have hb := neg_one_le_findIndexInt p l
      rw [findIndexInt_cons_neg l (by simpa using hpa)] at h ⊢
      by_cases hr : findIndexInt p l = -1
      · simp [hr] at h
      · have h0 : 0 ≤ findIndexInt p l := by omega
        obtain ⟨b, hb1, hb2⟩ := ih h0
        refine ⟨b, ?_, hb2⟩
        have ht : (findIndexInt p l + 1).toNat = (findIndexInt p l).toNat + 1 := by
          omega
        simp only [hr, if_false, ht, List.getElem?_cons_succ]
        exact hb1

theorem mem_of_getLast_eq {l : List α} {e : α} (h : l.getLast? = some e) : e ∈ l := by
  rw [List.getLast?_eq_getElem?] at h
  exact List.getElem?_mem h

/-- Under the uniqueness invariant, when the last criterion matches the
column, `find` returns precisely that criterion and `findIndex` returns the
last index. -/
theorem find_last_of_pairwise {cid : String} {l : List SortCriterion}
    {e : SortCriterion} (hp : l.Pairwise (fun x y => x.id ≠ y.id))
    (hl : l.getLast? = some e) (he : e.id = cid) :
    l.find? (fun d => d.id == cid) = some e ∧
      findIndexInt (fun d => d.id == cid) l = (l.length : Int) - 1 := by
  induction l with
  | nil => simp at hl
  | cons x l ih =>
    cases l with
    | nil =>
      have hxe : x = e := by simpa using hl
      subst hxe
      constructor
      · exact List.find?_cons_of_pos _ (by simp [he])
      · simp [findIndexInt, he]
    | cons y rest =>
      rw [List.getLast?_cons_cons] at hl
      have hpc := List.pairwise_cons.mp hp
      have hmem : e ∈ y :: rest := mem_of_getLast_eq hl
      have hx : x.id ≠ cid := he ▸ hpc.1 e hmem
      obtain ⟨ihf, ihi⟩ := ih hpc.2 hl
      constructor
      · rw [List.find?_cons_of_neg _ (by simp [hx])]
        exact ihf
      · rw [findIndexInt_cons_neg _ (by simp [hx]), ihi]
        have hne : ((y :: rest).length : Int) - 1 ≠ -1 := by
          simp only [List.length_cons]
          push_cast
          omega
        rw [if_neg hne]
        simp only [List.length_cons]
        push_cast
        omega

/-! Unfolding helpers for the reducer. -/

theorem toggleSortBy_of_find {cfg : SortConfig} {columns : List ColumnDef}
    {sortBy : List SortCriterion} {cid : String} {desc : Option Bool}
    {multi : Bool} {col : ColumnDef}
    (hfind : columns.find? (fun d => d.id == cid) = some col) :
    toggleSortBy cfg columns sortBy cid desc multi =
      some (applyAction sortBy cid desc col.sortDescFirst
        (finalAction cfg col.sortDescFirst desc.isSome multi
          (baseAction cfg sortBy cid multi))) := by
  unfold toggleSortBy
  rw [hfind]

theorem baseAction_single {cfg : SortConfig} {sortBy : List SortCriterion}
    {cid : String} {multi : Bool}
    (hmode : multi = false ∨ cfg.disableMultiSort = true) :
    baseAction cfg sortBy cid multi =
      if findIndexInt (fun d => d.id == cid) sortBy ≠ (sortBy.length : Int) - 1
      then SortAction.replace
      else
        match findCriterion sortBy cid with
        | some e => SortAction.toggle e
        | none => SortAction.replace := by
  unfold baseAction
  rcases hmode with h | h <;> simp [h]

theorem baseAction_multi {cfg : SortConfig} {sortBy : List SortCriterion}
    {cid : String} (hms : cfg.disableMultiSort = false) :
    baseAction cfg sortBy cid true =
      match findCriterion sortBy cid with
      | some e => SortAction.toggle e
      | none => SortAction.add := by
  unfold baseAction
  simp [hms]

/-- Claim C3: a classified `toggle` is downgraded to `remove` exactly when no
explicit `desc` was supplied, `disableSortRemove` is off, `disableMultiRemove`
is off whenever `multi` is set, and the existing direction sits at the
removal boundary `(existing.desc && !sortDescFirst) || (!existing.desc &&
sortDescFirst)`; consequently, for a sortable column with
`sortDescFirst = false` and removal enabled, single-mode toggles with no
explicit direction cycle the criteria list [] → [{id, desc:false}] →
[{id, desc:true}] → [], and with `disableSortRemove = true` the list
alternates between the two directions and is never emptied. -/
theorem toggle_downgrade_and_cycle :
    (∀ (cfg : SortConfig) (sortDescFirst : Bool) (desc : Option Bool)
        (multi : Bool) (e : SortCriterion),
      finalAction cfg sortDescFirst desc.isSome multi (SortAction.toggle e) =
          SortAction.remove ↔
        (desc = none ∧ cfg.disableSortRemove = false ∧
          (multi = true → cfg.disableMultiRemove = false) ∧
          ((e.desc = true ∧ sortDescFirst = false) ∨
            (e.desc = false ∧ sortDescFirst = true)))) ∧
    (∀ (cfg : SortConfig) (columns : List ColumnDef) (cid : String)
        (col : ColumnDef),
      columns.find? (fun d => d.id == cid) = some col →
      col.sortDescFirst = false →
      cfg.disableSortRemove = false →
      toggleSortBy cfg columns [] cid none false =
          some [SortCriterion.mk cid false] ∧
        toggleSortBy cfg columns [SortCriterion.mk cid false] cid none false =
          some [SortCriterion.mk cid true] ∧
        toggleSortBy cfg columns [SortCriterion.mk cid true] cid none false =
          some []) ∧
    (∀ (cfg : SortConfig) (columns : List ColumnDef) (cid : String)
        (col : ColumnDef),
      columns.find? (fun d => d.id == cid) = some col →
      col.sortDescFirst = false →
      cfg.disableSortRemove = true →
      toggleSortBy cfg columns [SortCriterion.mk cid false] cid none false =
          some [SortCriterion.mk cid true] ∧
        toggleSortBy cfg columns [SortCriterion.mk cid true] cid none false =
          some [SortCriterion.mk cid false]) := by
  refine ⟨?_, ?_, ?_⟩
  · intro cfg sortDescFirst desc multi e
    obtain ⟨dms, dsr, dmr⟩ := cfg
    obtain ⟨eid, edesc⟩ := e
    rcases desc with _ | db <;>
      cases edesc <;> cases sortDescFirst <;> cases multi <;>
      cases dsr <;> cases dmr <;>
      simp [finalAction]
  · intro cfg columns cid col hfind hsdf hdsr
    have hbase0 : baseAction cfg [] cid false = SortAction.replace := by
      rw [baseAction_single (Or.inl rfl)]
      simp [findIndexInt, findCriterion]
    have hbase1 : baseAction cfg [SortCriterion.mk cid false] cid false =
        SortAction.toggle (SortCriterion.mk cid false) := by
      rw [baseAction_single (Or.inl rfl)]
      simp [findIndexInt, findCriterion, List.find?]
    have hbase2 : baseAction cfg [SortCriterion.mk cid true] cid false =
        SortAction.toggle (SortCriterion.mk cid true) := by
      rw [baseAction_single (Or.inl rfl)]
      simp [findIndexInt, findCriterion, List.find?]
    refine ⟨?_, ?_, ?_⟩
    · rw [toggleSortBy_of_find hfind, hbase0]
      simp [finalAction, applyAction, hsdf]
    · rw [toggleSortBy_of_find hfind, hbase1]
      simp [finalAction, applyAction, hsdf, hdsr]
    · rw [toggleSortBy_of_find hfind, hbase2]
      simp [finalAction, applyAction, hsdf, hdsr]
  · intro cfg columns cid col hfind hsdf hdsr
    have hbase1 : baseAction cfg [SortCriterion.mk cid false] cid false =
        SortAction.toggle (SortCriterion.mk cid false) := by
      rw [baseAction_single (Or.inl rfl)]
      simp [findIndexInt, findCriterion, List.find?]
    have hbase2 : baseAction cfg [SortCriterion.mk cid true] cid false =
        SortAction.toggle (SortCriterion.mk cid true) := by
      rw [baseAction_single (Or.inl rfl)]
      simp [findIndexInt, findCriterion, List.find?]
    constructor
    · rw [toggleSortBy_of_find hfind, hbase1]
      simp [finalAction, applyAction, hsdf, hdsr]
    · rw [toggleSortBy_of_find hfind, hbase2]
      simp [finalAction, applyAction, hsdf, hdsr]

/-- Witness for claim C3: the downgrade equivalence and the two cycles instantiated on
the concrete column `colA` (sortDescFirst = false). -/
theorem toggle_downgrade_and_cycle_witness :
    (finalAction cfg0 false (none : Option Bool).isSome false
        (SortAction.toggle (SortCriterion.mk "a" true)) = SortAction.remove) ∧
    (toggleSortBy cfg0 [colA] [] "a" none false =
        some [SortCriterion.mk "a" false] ∧
      toggleSortBy cfg0 [colA] [SortCriterion.mk "a" false] "a" none false =
        some [SortCriterion.mk "a" true] ∧
      toggleSortBy cfg0 [colA] [SortCriterion.mk "a" true] "a" none false =
        some []) ∧
    (toggleSortBy (SortConfig.mk false true false) [colA]
        [SortCriterion.mk "a" false] "a" none false =
        some [SortCriterion.mk "a" true] ∧
      toggleSortBy (SortConfig.mk false true false) [colA]
        [SortCriterion.mk "a" true] "a" none false =
        some [SortCriterion.mk "a" false]) := by
  refine ⟨?_, ?_, ?_⟩
  · exact (toggle_downgrade_and_cycle.1 cfg0 false none false
      (SortCriterion.mk "a" true)).mpr ⟨rfl, rfl, by simp, Or.inl ⟨rfl, rfl⟩⟩
  · exact toggle_downgrade_and_cycle.2.1 cfg0 [colA] "a" colA rfl rfl rfl
  · exact toggle_downgrade_and_cycle.2.2 (SortConfig.mk false true false)
      [colA] "a" colA rfl rfl rfl

/-- Claim C4: in single-sort mode the action is `replace` — the list collapses to
the single criterion `{id, desc: explicit desc if supplied, else
sortDescFirst}` — unless a criterion for the column exists and is the last
element, in which case the classified action is `toggle`; in particular
from `[{A,desc:false},{B,desc:false}]`, toggling `A` non-multi yields
`[{A, sortDescFirst of A}]`.  The `toggle` part assumes the uniqueness
invariant of the data model (at most one criterion per column id). -/
theorem single_mode_replace (cfg : SortConfig) (columns : List ColumnDef)
    (cid : String) (col : ColumnDef) (desc : Option Bool) (multi : Bool)
    (hmode : multi = false ∨ cfg.disableMultiSort = true)
    (hfind : columns.find? (fun d => d.id == cid) = some col) :
    (∀ sortBy : List SortCriterion,
        (∀ e, sortBy.getLast? = some e → e.id ≠ cid) →
        toggleSortBy cfg columns sortBy cid desc multi =
          some [SortCriterion.mk cid (desc.getD col.sortDescFirst)]) ∧
    (∀ (sortBy : List SortCriterion) (e : SortCriterion),
        sortBy.Pairwise (fun x y => x.id ≠ y.id) →
        sortBy.getLast? = some e → e.id = cid →
        baseAction cfg sortBy cid multi = SortAction.toggle e) ∧
    (∀ B : String, cid ≠ B →
        toggleSortBy cfg columns
            [SortCriterion.mk cid false, SortCriterion.mk B false] cid none multi =
          some [SortCriterion.mk cid col.sortDescFirst]) := by
  have key : ∀ (d2 : Option Bool) (sortBy : List SortCriterion),
      (∀ e, sortBy.getLast? = some e → e.id ≠ cid) →
      toggleSortBy cfg columns sortBy cid d2 multi =
        some [SortCriterion.mk cid (d2.getD col.sortDescFirst)] := by
    intro d2 sortBy hlast
    have hbase : baseAction cfg sortBy cid multi = SortAction.replace := by
      rw [baseAction_single hmode]
      cases hfc : findCriterion sortBy cid with
      | none =>
        have hidx : findIndexInt (fun d => d.id == cid) sortBy = -1 :=
          findIndexInt_eq_neg_one_iff.mpr hfc
        rw [hidx]
        by_cases hlen : (sortBy.length : Int) - 1 = -1
        · rw [if_neg (by omega)]
        · rw [if_pos (by omega)]
      | some e0 =>
        have hne : findIndexInt (fun d => d.id == cid) sortBy ≠ -1 := by
          intro h
          rw [findIndexInt_eq_neg_one_iff] at h
          rw [show findCriterion sortBy cid = sortBy.find? (fun d => d.id == cid)
            from rfl, h] at hfc
          exact Option.noConfusion hfc
        have hge : 0 ≤ findIndexInt (fun d => d.id == cid) sortBy := by
          have := neg_one_le_findIndexInt (fun d => d.id == cid) sortBy
          omega
        have hneq : findIndexInt (fun d => d.id == cid) sortBy ≠
            (sortBy.length : Int) - 1 := by
          intro heq
          obtain ⟨a, ha1, ha2⟩ := findIndexInt_getElem hge
          have hlen1 : 1 ≤ sortBy.length := by
            cases sortBy with
            | nil => simp [findCriterion] at hfc
            | cons x l => simp
          have htn : (findIndexInt (fun d => d.id == cid) sortBy).toNat =
              sortBy.length - 1 := by omega
          rw [htn] at ha1
          have hl2 : sortBy.getLast? = some a := by
            rw [List.getLast?_eq_getElem?]
            exact ha1
          exact hlast a hl2 (by simpa using ha2)
        rw [if_pos hneq]
    rw [toggleSortBy_of_find hfind, hbase]
    simp [finalAction, applyAction]
  refine ⟨key desc, ?_, ?_⟩
  · intro sortBy e hp hl he
    obtain ⟨hf, hi⟩ := find_last_of_pairwise hp hl he
    rw [baseAction_single hmode, if_neg (by rw [hi]; simp)]
    rw [show findCriterion sortBy cid = some e from hf]
  · intro B hB
    have h := key none [SortCriterion.mk cid false, SortCriterion.mk B false]
      (by
        intro e hl hid
        have he : SortCriterion.mk B false = e := by simpa using hl
        rw [← he] at hid
        exact hB hid.symm)
    simpa using h

/-- Witness for claim C4: with both disabling modes expressible, toggling `a`
(non-multi) over active criteria on `a` then `b` restarts with the single
criterion on `a`. -/
theorem single_mode_replace_witness :
    ((false = false ∨ cfg0.disableMultiSort = true) ∧
      List.find? (fun d => d.id == "a") [colA, colB] = some colA ∧ "a" ≠ "b") ∧
    toggleSortBy cfg0 [colA, colB]
        [SortCriterion.mk "a" false, SortCriterion.mk "b" false] "a" none false =
      some [SortCriterion.mk "a" false] :=
  ⟨⟨Or.inl rfl, rfl, by decide⟩,
    (single_mode_replace cfg0 [colA, colB] "a" colA none false
      (Or.inl rfl) rfl).2.2 "b" (by decide)⟩

theorem toggleSortBy_add {cfg : SortConfig} {columns : List ColumnDef}
    {sortBy : List SortCriterion} {cid : String} {desc : Option Bool}
    {col : ColumnDef} (hms : cfg.disableMultiSort = false)
    (hfind : columns.find? (fun d => d.id == cid) = some col)
    (hfc : findCriterion sortBy cid = none) :
    toggleSortBy cfg columns sortBy cid desc true =
      some (sortBy ++ [SortCriterion.mk cid (desc.getD col.sortDescFirst)]) := by
  have hbase : baseAction cfg sortBy cid true = SortAction.add := by
    rw [baseAction_multi hms, hfc]
  rw [toggleSortBy_of_find hfind, hbase]
  simp [finalAction, applyAction]

/-- Claim C5: with multi-sort enabled and `multi` requested, toggling a column with
no existing criterion appends `{id, desc: explicit desc if supplied, else
sortDescFirst}` after the unchanged existing criteria; toggling distinct
columns `A` then `B` from the empty list yields `[{A,...},{B,...}]` in
insertion order. -/
theorem multi_sort_add (cfg : SortConfig) (columns : List ColumnDef)
    (cid : String) (col : ColumnDef) (desc : Option Bool)
    (hms : cfg.disableMultiSort = false)
    (hfind : columns.find? (fun d => d.id == cid) = some col) :
    (∀ sortBy : List SortCriterion, findCriterion sortBy cid = none →
        toggleSortBy cfg columns sortBy cid desc true =
          some (sortBy ++ [SortCriterion.mk cid (desc.getD col.sortDescFirst)])) ∧
    (∀ (B : String) (colB2 : ColumnDef), cid ≠ B →
        columns.find? (fun d => d.id == B) = some colB2 →
        (toggleSortBy cfg columns [] cid none true).bind
            (fun s1 => toggleSortBy cfg columns s1 B none true) =
          some [SortCriterion.mk cid col.sortDescFirst,
            SortCriterion.mk B colB2.sortDescFirst]) := by
  refine ⟨fun sortBy hfc => toggleSortBy_add hms hfind hfc, ?_⟩
  intro B colB2 hB hfindB
  rw [toggleSortBy_add hms hfind (by simp [findCriterion])]
  simp only [List.nil_append, Option.some_bind]
  rw [toggleSortBy_add hms hfindB
    (by
      have hbe : (cid == B) = false := beq_eq_false_iff_ne.mpr hB
      show List.find? (fun d => d.id == B)
        [SortCriterion.mk cid (Option.getD none col.sortDescFirst)] = none
      rw [List.find?_cons_of_neg _ (by simp [hbe])]
      rfl)]
  simp

/-- Witness for claim C5: toggling `a` then `b` with `multi = true` over empty criteria
yields the two criteria in insertion order. -/
theorem multi_sort_add_witness :
    (cfg0.disableMultiSort = false ∧
      List.find? (fun d => d.id == "a") [colA, colB] = some colA ∧
      List.find? (fun d => d.id == "b") [colA, colB] = some colB ∧
      ("a" : String) ≠ "b") ∧
    (toggleSortBy cfg0 [colA, colB] [] "a" none true).bind
        (fun s1 => toggleSortBy cfg0 [colA, colB] s1 "b" none true) =
      some [SortCriterion.mk "a" false, SortCriterion.mk "b" false] :=
  ⟨⟨rfl, rfl, rfl, by decide⟩,
    (multi_sort_add cfg0 [colA, colB] "a" colA none rfl rfl).2 "b" colB
      (by decide) rfl⟩

/-! Inversion lemmas for the action classification. -/

theorem finalAction_toggle_inv {cfg : SortConfig} {sdf hd multi : Bool}
    {a : SortAction} {e : SortCriterion}
    (h : finalAction cfg sdf hd multi a = SortAction.toggle e) :
    a = SortAction.toggle e := by
  cases a with
  | replace => simpa [finalAction] using h
  | add => simpa [finalAction] using h
  | toggle e0 =>
    simp only [finalAction] at h
    split at h <;> split at h <;>
      first
        | exact h
        | exact absurd h (by simp)
  | remove => simpa [finalAction] using h

theorem finalAction_remove_inv {cfg : SortConfig} {sdf hd multi : Bool}
    {a : SortAction}
    (h : finalAction cfg sdf hd multi a = SortAction.remove) :
    a = SortAction.remove ∨ ∃ e, a = SortAction.toggle e := by
  cases a with
  | replace => simpa [finalAction] using h
  | add => simpa [finalAction] using h
  | toggle e0 => exact Or.inr ⟨e0, rfl⟩
  | remove => exact Or.inl rfl

theorem finalAction_add_inv {cfg : SortConfig} {sdf hd multi : Bool}
    {a : SortAction} (h : finalAction cfg sdf hd multi a = SortAction.add) :
    a = SortAction.add := by
  cases a with
  | replace => simpa [finalAction] using h
  | add => rfl
  | toggle e0 =>
    simp only [finalAction] at h
    split at h <;> split at h <;> exact absurd h (by simp)
  | remove => simpa [finalAction] using h

theorem baseAction_toggle_find {cfg : SortConfig} {sortBy : List SortCriterion}
    {cid : String} {multi : Bool} {e : SortCriterion}
    (h : baseAction cfg sortBy cid multi = SortAction.toggle e) :
    findCriterion sortBy cid = some e := by
  simp only [baseAction] at h
  cases hfc : findCriterion sortBy cid with
  | some e0 =>
    rw [hfc] at h
    by_cases hm : (!cfg.disableMultiSort && multi) = true
    · rw [if_pos hm] at h
      simpa using h
    · rw [if_neg hm] at h
      by_cases hidx : findIndexInt (fun d => d.id == cid) sortBy ≠
          (sortBy.length : Int) - 1
      · rw [if_pos hidx] at h
        exact absurd h (by simp)
      · rw [if_neg hidx] at h
        simpa using h
  | none =>
    rw [hfc] at h
    by_cases hm : (!cfg.disableMultiSort && multi) = true
    · rw [if_pos hm] at h
      exact absurd h (by simp)
    · rw [if_neg hm] at h
      by_cases hidx : findIndexInt (fun d => d.id == cid) sortBy ≠
          (sortBy.length : Int) - 1
      · rw [if_pos hidx] at h
        exact absurd h (by simp)
      · rw [if_neg hidx] at h
        exact absurd h (by simp)

theorem baseAction_add_find {cfg : SortConfig} {sortBy : List SortCriterion}
    {cid : String} {multi : Bool}
    (h : baseAction cfg sortBy cid multi = SortAction.add) :
    findCriterion sortBy cid = none := by
  simp only [baseAction] at h
  cases hfc : findCriterion sortBy cid with
  | some e0 =>
    rw [hfc] at h
    by_cases hm : (!cfg.disableMultiSort && multi) = true
    · rw [if_pos hm] at h
      exact absurd h (by simp)
    · rw [if_neg hm] at h
      by_cases hidx : findIndexInt (fun d => d.id == cid) sortBy ≠
          (sortBy.length : Int) - 1
      · rw [if_pos hidx] at h
        exact absurd h (by simp)
      · rw [if_neg hidx] at h
        exact absurd h (by simp)
  | none => rfl

theorem filter_map_untouched {cid : String} (g : SortCriterion → SortCriterion)
    (hg : ∀ d, (d.id == cid) = false → g d = d)
    (hid : ∀ d, (g d).id = d.id) :
    ∀ l : List SortCriterion,
      (l.map g).filter (fun d => d.id != cid) = l.filter (fun d => d.id != cid)
  | [] => rfl
  | d :: l => by
    by_cases hd : (d.id == cid) = true
    · have h1 : ((g d).id != cid) = false := by
        rw [bne, hid, hd]
        rfl
      have h2 : (d.id != cid) = false := by
        rw [bne, hd]
        rfl
      simp only [List.map_cons, List.filter_cons, h1, h2, if_false,
        Bool.false_eq_true]
      exact filter_map_untouched g hg hid l
    · have hd2 : (d.id == cid) = false := by simpa using hd
      have h2 : (d.id != cid) = true := by
        rw [bne, hd2]
        rfl
      have h1 : ((g d).id != cid) = true := by
        rw [bne, hid, hd2]
        rfl
      simp only [List.map_cons, List.filter_cons, h1, h2, if_true, hg d hd2]
      rw [filter_map_untouched g hg hid l]

/-- Claim C9: on a criteria list with pairwise distinct column ids, every outcome of
the reducer again has pairwise distinct ids, and under the `toggle` and
`remove` actions the criteria of other columns are kept in their relative
order. -/
theorem toggle_preserves_uniqueness (cfg : SortConfig)
    (columns : List ColumnDef) (sortBy : List SortCriterion) (cid : String)
    (desc : Option Bool) (multi : Bool) (out : List SortCriterion)
    (hp : sortBy.Pairwise (fun x y => x.id ≠ y.id))
    (hout : toggleSortBy cfg columns sortBy cid desc multi = some out) :
    out.Pairwise (fun x y => x.id ≠ y.id) ∧
    (∀ col : ColumnDef, columns.find? (fun d => d.id == cid) = some col →
      ((∃ e, finalAction cfg col.sortDescFirst desc.isSome multi
          (baseAction cfg sortBy cid multi) = SortAction.toggle e) ∨
        finalAction cfg col.sortDescFirst desc.isSome multi
          (baseAction cfg sortBy cid multi) = SortAction.remove) →
      out.filter (fun d => d.id != cid) = sortBy.filter (fun d => d.id != cid)) := by
  cases hcol : columns.find? (fun d => d.id == cid) with
  | none =>
    unfold toggleSortBy at hout
    rw [hcol] at hout
    exact Option.noConfusion hout
  | some col =>
    rw [toggleSortBy_of_find hcol] at hout
    have hout2 : out = applyAction sortBy cid desc col.sortDescFirst
        (finalAction cfg col.sortDescFirst desc.isSome multi
          (baseAction cfg sortBy cid multi)) := (Option.some_inj.mp hout).symm
    constructor
    · rw [hout2]
      cases hact : finalAction cfg col.sortDescFirst desc.isSome multi
          (baseAction cfg sortBy cid multi) with
      | replace => simp [applyAction]
      | add =>
        have hfc := baseAction_add_find (finalAction_add_inv hact)
        simp only [applyAction]
        refine List.pairwise_append.mpr ⟨hp, by simp, ?_⟩
        intro a ha b hb2
        have hane : ¬(a.id == cid) = true := List.find?_eq_none.mp hfc a ha
        have hb3 : b = SortCriterion.mk cid (desc.getD col.sortDescFirst) := by
          simpa using hb2
        rw [hb3]
        simpa using hane
      | toggle e =>
        simp only [applyAction]
        rw [List.pairwise_map]
        have hid : ∀ d : SortCriterion,
            (if (d.id == cid) = true
              then SortCriterion.mk d.id (desc.getD (!e.desc)) else d).id = d.id := by
          intro d
          split <;> rfl
        refine hp.imp ?_
        intro a b hab
        simp only [hid]
        exact hab
      | remove =>
        simp only [applyAction]
        exact List.Pairwise.sublist (List.filter_sublist sortBy) hp
    · intro col2 hcol2 hcase
      have hce : col = col2 := Option.some_inj.mp hcol2
      subst hce
      rcases hcase with ⟨e, he⟩ | hrem
      · rw [hout2, he]
        simp only [applyAction]
        exact filter_map_untouched _
          (fun d hd => by simp [hd]) (fun d => by split <;> rfl) sortBy
      · rw [hout2, hrem]
        simp only [applyAction]
        rw [List.filter_filter]
        simp

/-- Witness for claim C9: toggling `b` (multi) over the unique-id list on `a` and `b`
keeps ids unique. -/
theorem toggle_preserves_uniqueness_witness :
    List.Pairwise (fun x y : SortCriterion => x.id ≠ y.id)
        [SortCriterion.mk "a" false, SortCriterion.mk "b" false] ∧
    toggleSortBy cfg0 [colA, colB]
        [SortCriterion.mk "a" false, SortCriterion.mk "b" false] "b" none true =
      some [SortCriterion.mk "a" false, SortCriterion.mk "b" true] ∧
    List.Pairwise (fun x y : SortCriterion => x.id ≠ y.id)
        [SortCriterion.mk "a" false, SortCriterion.mk "b" true] :=
  ⟨by decide, by decide,
    (toggle_preserves_uniqueness cfg0 [colA, colB]
      [SortCriterion.mk "a" false, SortCriterion.mk "b" false] "b" none true
      [SortCriterion.mk "a" false, SortCriterion.mk "b" true]
      (by decide) (by decide)).1⟩

/-- Claim C6: the comparator for a criterion is resolved in priority order —
function `sortType`, user registry key, built-in registry key, built-in
default — and no later stage is consulted once an earlier one yields a
comparator. -/
theorem comparator_resolution (u bi : CmpRegistry) (alpha : CmpFn) :
    (∀ f : CmpFn, resolveSortMethod u bi alpha (SortTypeSpec.fn f) = f) ∧
    (∀ (s : String) (f : CmpFn), u s = some f →
        resolveSortMethod u bi alpha (SortTypeSpec.key s) = f) ∧
    (∀ (s : String) (f : CmpFn), u s = none → bi s = some f →
        resolveSortMethod u bi alpha (SortTypeSpec.key s) = f) ∧
    (∀ s : String, u s = none → bi s = none →
        resolveSortMethod u bi alpha (SortTypeSpec.key s) = alpha) ∧
    resolveSortMethod u bi alpha SortTypeSpec.undef = alpha := by
  refine ⟨fun f => rfl, ?_, ?_, ?_, rfl⟩
  · intro s f hu
    simp [resolveSortMethod, hu]
  · intro s f hu hb
    simp [resolveSortMethod, hu, hb]
  · intro s hu hb
    simp [resolveSortMethod, hu, hb]

/-- A user registry carrying only the key `x`. -/
def regUser : CmpRegistry := fun s => if s = "x" then some dirProbe else none

/-- A built-in registry carrying only the key `y`. -/
def regBuiltin : CmpRegistry := fun s => if s = "y" then some cmpNum else none

/-- Witness for claim C6: resolution over concrete registries hits the user entry, the
built-in entry and the default in turn. -/
theorem comparator_resolution_witness :
    (regUser "x" = some dirProbe ∧ regUser "y" = none ∧
      regBuiltin "y" = some cmpNum ∧ regUser "z" = none ∧ regBuiltin "z" = none) ∧
    resolveSortMethod regUser regBuiltin alphaDflt (SortTypeSpec.key "x") = dirProbe ∧
    resolveSortMethod regUser regBuiltin alphaDflt (SortTypeSpec.key "y") = cmpNum ∧
    resolveSortMethod regUser regBuiltin alphaDflt (SortTypeSpec.key "z") = alphaDflt :=
  ⟨⟨rfl, rfl, rfl, rfl, rfl⟩,
    (comparator_resolution regUser regBuiltin alphaDflt).2.1 "x" dirProbe rfl,
    (comparator_resolution regUser regBuiltin alphaDflt).2.2.1 "y" cmpNum rfl rfl,
    (comparator_resolution regUser regBuiltin alphaDflt).2.2.2.1 "z" rfl rfl⟩

/-- Claim C7: manual sorting or an empty criteria list short-circuits the engine:
the input rows come back as the identical value, with no copying and no
reordering, whatever the criteria contain in the manual case. -/
theorem manual_or_empty_identity (manualSorting : Bool)
    (sortBy : List SortCriterion) (columns : List ColumnDef)
    (u bi : CmpRegistry) (alpha : CmpFn) (rows : List Row)
    (h : manualSorting = true ∨ sortBy = []) :
    sortedRows manualSorting sortBy columns u bi alpha rows = some rows := by
  rcases h with h | h <;> simp [sortedRows, h]

/-- Witness for claim C7: manual sorting with a non-empty criteria list returns the
input forest unchanged. -/
theorem manual_or_empty_identity_witness :
    (true = true ∨ ([critA] : List SortCriterion) = []) ∧
    sortedRows true [critA] [colA] noReg noReg alphaDflt f0 = some f0 :=
  ⟨Or.inl rfl,
    manual_or_empty_identity true [critA] [colA] noReg noReg alphaDflt f0
      (Or.inl rfl)⟩

theorem mapOrNone_getElem {f : α → Option β} :
    ∀ {l : List α} {ys : List β}, mapOrNone f l = some ys →
      ∀ {i : Nat} {a : α}, l[i]? = some a →
        ∃ b, f a = some b ∧ ys[i]? = some b := by
  intro l
  induction l with
  | nil =>
    intro ys h i a ha
    simp at ha
  | cons x xs ih =>
    intro ys h i a ha
    simp only [mapOrNone] at h
    cases hfx : f x with
    | none =>
      rw [hfx] at h
      exact Option.noConfusion h
    | some b0 =>
      rw [hfx] at h
      cases hrest : mapOrNone f xs with
      | none =>
        rw [hrest] at h
        exact Option.noConfusion h
      | some bs =>
        rw [hrest] at h
        have hys : ys = b0 :: bs := (Option.some_inj.mp h).symm
        subst hys
        cases i with
        | zero =>
          have hax : x = a := by simpa using ha
          subst hax
          exact ⟨b0, hfx, by simp⟩
        | succ n =>
          have ha2 : xs[n]? = some a := by simpa using ha
          obtain ⟨b, hb1, hb2⟩ := ih hrest ha2
          exact ⟨b, hb1, by simpa using hb2⟩

/-- Counterexample to claim C1: column `a` sets `sortInverted` and its `sortType` is
the probe comparator that returns 1 when invoked with direction `true` and 0
with `false`.  For the criterion `{id: "a", desc: false}` the claim predicts
an invocation with direction `true` (probe result 1); the engine compiles a
comparator that hands the probe `sort.desc = false` (probe result 0). -/
theorem inverted_direction_counterexample :
    (buildSortFns [invColumn] noReg noReg alphaDflt
        [SortCriterion.mk "a" false]).map
      (fun fns => fns.map (fun f => f (leafRow 1) (leafRow 2))) = some [0] ∧
    invColumn.sortInverted = true ∧ (0 : Int) ≠ 1 :=
  ⟨rfl, rfl, by decide⟩

/-- Claim C1 as amended: the direction boolean passed to the resolved comparator is
always the criterion `desc`, for inverted and non-inverted columns alike;
`sortInverted` instead flips the separate per-criterion direction flag handed
to `orderByFn`, which is `!desc` for a normal column and `desc` for an
inverted one. -/
theorem inverted_direction_amended (u bi : CmpRegistry) (alpha : CmpFn)
    (columns : List ColumnDef) (sortBy : List SortCriterion)
    (fns : List (Row → Row → Int)) (dirs : List Bool) (i : Nat)
    (sort : SortCriterion)
    (hf : buildSortFns columns u bi alpha sortBy = some fns)
    (hd : buildDirections columns sortBy = some dirs)
    (hi : sortBy[i]? = some sort) :
    ∃ col : ColumnDef, columns.find? (fun d => d.id == sort.id) = some col ∧
      fns[i]? = some (fun a b =>
        resolveSortMethod u bi alpha col.sortType
          (rowValue a sort.id) (rowValue b sort.id) sort.desc) ∧
      dirs[i]? = some (if col.sortInverted then sort.desc else !sort.desc) := by
  obtain ⟨b1, hb1, hb2⟩ := mapOrNone_getElem hf hi
  obtain ⟨b2, hc1, hc2⟩ := mapOrNone_getElem hd hi
  cases hcol : columns.find? (fun d => d.id == sort.id) with
  | none =>
    rw [hcol] at hb1
    exact Option.noConfusion hb1
  | some col =>
    rw [hcol] at hb1 hc1
    have he1 : b1 = compiledSortFn
        (resolveSortMethod u bi alpha col.sortType) sort := by
      simpa using hb1.symm
    have he2 : b2 = compiledDirection col sort := by
      simpa using hc1.symm
    refine ⟨col, rfl, ?_, ?_⟩
    · rw [he1] at hb2
      exact hb2
    · rw [he2] at hc2
      exact hc2

/-- Witness for claim C1 as amended: the pipeline over the inverted column compiles the
probe comparator applied with `desc = false` and the direction flag
`desc = false` (inverted), matching the amended statement. -/
theorem inverted_direction_amended_witness :
    (buildSortFns [invColumn] noReg noReg alphaDflt [SortCriterion.mk "a" false] =
        some [compiledSortFn dirProbe (SortCriterion.mk "a" false)] ∧
      buildDirections [invColumn] [SortCriterion.mk "a" false] = some [false] ∧
      ([SortCriterion.mk "a" false])[0]? = some (SortCriterion.mk "a" false)) ∧
    (∃ col : ColumnDef,
      List.find? (fun d => d.id == "a") [invColumn] = some col ∧
      ([compiledSortFn dirProbe (SortCriterion.mk "a" false)])[0]? =
        some (fun a b =>
          resolveSortMethod noReg noReg alphaDflt col.sortType
            (rowValue a "a") (rowValue b "a") false) ∧
      ([false] : List Bool)[0]? =
        some (if col.sortInverted then false else !false)) :=
  ⟨⟨rfl, rfl, rfl⟩,
    inverted_direction_amended noReg noReg alphaDflt [invColumn]
      [SortCriterion.mk "a" false]
      [compiledSortFn dirProbe (SortCriterion.mk "a" false)] [false] 0
      (SortCriterion.mk "a" false) rfl rfl rfl⟩

/-- Claim C2 as amended: each ordering pass builds a new sibling array, and the
top-level of the input keeps its original order and values; but the row
objects of the input are mutated — the pass reassigns every row `subRows`
property to the recursively sorted sub-forest (src line 269). -/
theorem ordering_mutates_subrows_amended (sortFns : List (Row → Row → Int))
    (dirs : List Bool) (rows : List Row) :
    (inputAfterSort sortFns dirs rows).map Row.values = rows.map Row.values ∧
    (inputAfterSort sortFns dirs rows).length = rows.length ∧
    inputAfterSort sortFns dirs rows =
      rows.map (fun r => Row.mk r.values (sortData sortFns dirs r.subRows)) := by
  refine ⟨?_, ?_, rfl⟩
  · simp [inputAfterSort, List.map_map, Function.comp_def]
  · simp [inputAfterSort]

/-- Counterexample to claim C2: the one-root forest `f0` has children `[2, 1]` on
column `a`; after the ordering pass with the ascending criterion on `a`, the
root row object of the input holds the children `[1, 2]`: a row object of the
input forest was modified in place and the pre-sort list no longer shows the
original sibling order below the top level. -/
theorem ordering_mutates_subrows_counterexample :
    buildSortFns [colA] noReg noReg alphaDflt [critA] = some fnsA ∧
    buildDirections [colA] [critA] = some dirsA ∧
    forestShape f0 = [[some 2, some 1]] ∧
    forestShape (inputAfterSort fnsA dirsA f0) = [[some 1, some 2]] ∧
    inputAfterSort fnsA dirsA f0 ≠ f0 := by
  have hshape : forestShape (inputAfterSort fnsA dirsA f0) = [[some 1, some 2]] := by
    simp only [inputAfterSort, f0, List.map_cons, List.map_nil, Row.values_mk,
      Row.subRows_mk, sortData_two_leaves]
    decide
  refine ⟨rfl, rfl, by decide, hshape, ?_⟩
  intro h
  rw [h] at hshape
  exact absurd hshape (by decide)

/-! Congruence: the compiled comparators read only `Row.values`, so the level
order is determined by the values alone. -/

theorem compositeCompare_congr {fds : List ((Row → Row → Int) × Bool)}
    (hfact : ∀ fd ∈ fds, ∀ a b a2 b2 : Row, a.values = a2.values →
      b.values = b2.values → fd.1 a b = fd.1 a2 b2) :
    ∀ {a b a2 b2 : Row}, a.values = a2.values → b.values = b2.values →
      compositeCompare fds a b = compositeCompare fds a2 b2 := by
  induction fds with
  | nil =>
    intro a b a2 b2 ha hb
    rfl
  | cons fd rest ih =>
    intro a b a2 b2 ha hb
    obtain ⟨f, dir⟩ := fd
    have h1 : f a b = f a2 b2 := hfact (f, dir) (by simp) a b a2 b2 ha hb
    have ih2 := ih (fun fd hm => hfact fd (List.mem_cons_of_mem _ hm)) ha hb
    simp only [compositeCompare, h1, ih2]

theorem mapOrNone_mem {f : α → Option β} :
    ∀ {l : List α} {ys : List β}, mapOrNone f l = some ys →
      ∀ {b : β}, b ∈ ys → ∃ a ∈ l, f a = some b := by
  intro l
  induction l with
  | nil =>
    intro ys h b hb
    simp only [mapOrNone] at h
    have : ys = [] := (Option.some_inj.mp h).symm
    subst this
    simp at hb
  | cons x xs ih =>
    intro ys h b hb
    simp only [mapOrNone] at h
    cases hfx : f x with
    | none =>
      rw [hfx] at h
      exact Option.noConfusion h
    | some b0 =>
      rw [hfx] at h
      cases hrest : mapOrNone f xs with
      | none =>
        rw [hrest] at h
        exact Option.noConfusion h
      | some bs =>
        rw [hrest] at h
        have hys : ys = b0 :: bs := (Option.some_inj.mp h).symm
        subst hys
        rcases List.mem_cons.mp hb with hb | hb
        · exact ⟨x, by simp, hb ▸ hfx⟩
        · obtain ⟨a, ha1, ha2⟩ := ih hrest hb
          exact ⟨a, List.mem_cons_of_mem _ ha1, ha2⟩

theorem buildSortFns_factor {columns : List ColumnDef} {u bi : CmpRegistry}
    {alpha : CmpFn} {sortBy : List SortCriterion}
    {fns : List (Row → Row → Int)}
    (hf : buildSortFns columns u bi alpha sortBy = some fns) :
    ∀ fn ∈ fns, ∀ a b a2 b2 : Row, a.values = a2.values →
      b.values = b2.values → fn a b = fn a2 b2 := by
  intro fn hm a b a2 b2 ha hb
  obtain ⟨sort, hs, hfa⟩ := mapOrNone_mem hf hm
  cases hcol : columns.find? (fun d => d.id == sort.id) with
  | none =>
    rw [hcol] at hfa
    exact Option.noConfusion hfa
  | some col =>
    rw [hcol] at hfa
    have he : fn = compiledSortFn
        (resolveSortMethod u bi alpha col.sortType) sort := by
      simpa using hfa.symm
    rw [he]
    simp only [compiledSortFn, rowValue]
    rw [ha, hb]

theorem stableInsert_congr {le : Row → Row → Bool}
    (hle : ∀ a a2 b b2 : Row, a.values = a2.values → b.values = b2.values →
      le a b = le a2 b2)
    {x x2 : Row} (hx : x.values = x2.values) :
    ∀ {t t2 : List Row},
      List.Forall₂ (fun a b => Row.values a = Row.values b) t t2 →
      List.Forall₂ (fun a b => Row.values a = Row.values b)
        (stableInsert le x t) (stableInsert le x2 t2) := by
  intro t t2 ht
  induction ht with
  | nil => exact List.Forall₂.cons hx List.Forall₂.nil
  | @cons a b t t2 hab hrest ih =>
    simp only [stableInsert]
    have hxa : le x a = le x2 b := hle x x2 a b hx hab
    by_cases hc : le x a = true
    · rw [if_pos hc, if_pos (hxa ▸ hc)]
      exact List.Forall₂.cons hx (List.Forall₂.cons hab hrest)
    · rw [if_neg hc, if_neg (by rw [← hxa]; exact hc)]
      exact List.Forall₂.cons hab ih

theorem stableSort_congr {le : Row → Row → Bool}
    (hle : ∀ a a2 b b2 : Row, a.values = a2.values → b.values = b2.values →
      le a b = le a2 b2) :
    ∀ {l l2 : List Row},
      List.Forall₂ (fun a b => Row.values a = Row.values b) l l2 →
      List.Forall₂ (fun a b => Row.values a = Row.values b)
        (stableSort le l) (stableSort le l2) := by
  intro l l2 h
  induction h with
  | nil => exact List.Forall₂.nil
  | cons hab hrest ih =>
    simp only [stableSort]
    exact stableInsert_congr hle hab ih

theorem forall2_values_of_map_eq :
    ∀ {l l2 : List Row}, l.map Row.values = l2.map Row.values →
      List.Forall₂ (fun a b => Row.values a = Row.values b) l l2
  | [], [], _ => List.Forall₂.nil
  | [], _ :: _, h => by simp at h
  | _ :: _, [], h => by simp at h
  | a :: l, b :: l2, h => by
    simp only [List.map_cons, List.cons.injEq] at h
    exact List.Forall₂.cons h.1 (forall2_values_of_map_eq h.2)

theorem map_values_of_forall2 {l l2 : List Row}
    (h : List.Forall₂ (fun a b => Row.values a = Row.values b) l l2) :
    l.map Row.values = l2.map Row.values := by
  induction h with
  | nil => rfl
  | cons hab hrest ih => simp [hab, ih]

theorem sortData_map_values (sortFns : List (Row → Row → Int))
    (dirs : List Bool) (rows : List Row) :
    (sortData sortFns dirs rows).map Row.values =
      (stableSort (compositeLe (sortFns.zip dirs)) rows).map Row.values := by
  rw [sortData_def]
  simp [defaultOrderByFn, List.map_map, Function.comp_def]

/-- Claim C8: the ordering pass orders a level and then applies the same ordering
(same criteria, same comparator resolution) recursively to every row
`subRows`; a row position among its siblings is determined solely by its own
values, never by its descendants: two forests whose top-level values agree
pointwise are ordered the same way at the top level. -/
theorem recursive_sort_values_only (columns : List ColumnDef)
    (u bi : CmpRegistry) (alpha : CmpFn) (sortBy : List SortCriterion)
    (fns : List (Row → Row → Int)) (dirs : List Bool) (f g : List Row)
    (hf : buildSortFns columns u bi alpha sortBy = some fns)
    (hvals : f.map Row.values = g.map Row.values) :
    (sortData fns dirs f).map Row.values =
      (sortData fns dirs g).map Row.values ∧
    ∀ rows : List Row, sortData fns dirs rows =
      (defaultOrderByFn rows fns dirs).map
        (fun r => Row.mk r.values (sortData fns dirs r.subRows)) := by
  refine ⟨?_, sortData_def fns dirs⟩
  have hfact := buildSortFns_factor hf
  have hle : ∀ a a2 b b2 : Row, a.values = a2.values → b.values = b2.values →
      compositeLe (fns.zip dirs) a b = compositeLe (fns.zip dirs) a2 b2 := by
    intro a a2 b b2 ha hb
    unfold compositeLe
    rw [compositeCompare_congr ?_ ha hb]
    intro fd hm
    obtain ⟨fn, dir⟩ := fd
    exact hfact fn (List.of_mem_zip hm).1
  rw [sortData_map_values, sortData_map_values]
  exact map_values_of_forall2
    (stableSort_congr hle (forall2_values_of_map_eq hvals))

/-- A row with value 1 on `a` and one child. -/
def rowP : Row := Row.mk [("a", 1)] [leafRow 3]

/-- A row with value 1 on `a` and no children. -/
def rowQ : Row := Row.mk [("a", 1)] []

/-- Witness for claim C8: two forests with equal top-level values but different
sub-rows are ordered identically at the top level. -/
theorem recursive_sort_values_only_witness :
    (buildSortFns [colA] noReg noReg alphaDflt [critA] = some fnsA ∧
      ([rowP] : List Row).map Row.values = ([rowQ] : List Row).map Row.values) ∧
    (sortData fnsA dirsA [rowP]).map Row.values =
      (sortData fnsA dirsA [rowQ]).map Row.values :=
  ⟨⟨rfl, rfl⟩,
    (recursive_sort_values_only [colA] noReg noReg alphaDflt [critA]
      fnsA dirsA [rowP] [rowQ] rfl rfl).1⟩

/-! Stability of the composed ordering. -/

theorem compositeCompare_eq_zero {α : Type u}
    {fds : List ((α → α → Int) × Bool)} {a b : α}
    (h : ∀ fd ∈ fds, fd.1 a b = 0) : compositeCompare fds a b = 0 := by
  induction fds with
  | nil => rfl
  | cons fd rest ih =>
    obtain ⟨f, dir⟩ := fd
    have h0 : f a b = 0 := h (f, dir) (by simp)
    have hrest := ih (fun fd hm => h fd (List.mem_cons_of_mem _ hm))
    simp only [compositeCompare, h0]
    cases dir <;> simpa using hrest

theorem sublist_stableInsert_self {le : α → α → Bool} (x : α) :
    ∀ t : List α, t.Sublist (stableInsert le x t)
  | [] => List.nil_sublist _
  | y :: ys => by
    simp only [stableInsert]
    by_cases hc : le x y = true
    · rw [if_pos hc]
      exact List.sublist_cons_self x (y :: ys)
    · rw [if_neg hc]
      exact List.Sublist.cons₂ y (sublist_stableInsert_self x ys)

theorem cons_sublist_stableInsert {le : α → α → Bool} {x : α} :
    ∀ {t c2 : List α}, c2.Sublist t → (∀ y ∈ c2, le x y = true) →
      (x :: c2).Sublist (stableInsert le x t) := by
  intro t
  induction t with
  | nil =>
    intro c2 hs hx
    have hc : c2 = [] := List.sublist_nil.mp hs
    subst hc
    simp [stableInsert]
  | cons y ys ih =>
    intro c2 hs hx
    simp only [stableInsert]
    by_cases hc : le x y = true
    · rw [if_pos hc]
      exact List.Sublist.cons₂ x hs
    · rw [if_neg hc]
      cases hs with
      | cons _ hs2 =>
        exact List.Sublist.cons y (ih hs2 hx)
      | cons₂ _ hs2 =>
        exact absurd (hx y (by simp)) hc

theorem sublist_stableSort {le : α → α → Bool} :
    ∀ {l c : List α}, c.Sublist l →
      c.Pairwise (fun a b => le a b = true) → c.Sublist (stableSort le l) := by
  intro l
  induction l with
  | nil =>
    intro c hs hp
    have hc : c = [] := List.sublist_nil.mp hs
    subst hc
    exact List.nil_sublist _
  | cons x xs ih =>
    intro c hs hp
    simp only [stableSort]
    cases hs with
    | cons _ hs2 =>
      exact (ih hs2 hp).trans (sublist_stableInsert_self x _)
    | cons₂ _ hs2 =>
      have hp2 := List.pairwise_cons.mp hp
      exact cons_sublist_stableInsert (ih hs2 hp2.2) (fun y hy => hp2.1 y hy)

/-- Claim C10: the multi-key composition is stable: two rows of a level whose
values compare equal under every active criterion keep their relative input
order through the ordering pass. -/
theorem stable_composition (sortFns : List (Row → Row → Int))
    (dirs : List Bool) (rows : List Row) (a b : Row)
    (hpair : ∀ fd ∈ sortFns.zip dirs, fd.1 a b = 0)
    (hsub : List.Sublist [a, b] rows) :
    List.Sublist
      [Row.mk a.values (sortData sortFns dirs a.subRows),
        Row.mk b.values (sortData sortFns dirs b.subRows)]
      (sortData sortFns dirs rows) := by
  have hz : compositeCompare (sortFns.zip dirs) a b = 0 :=
    compositeCompare_eq_zero hpair
  have hle : compositeLe (sortFns.zip dirs) a b = true := by
    unfold compositeLe
    rw [hz]
    rfl
  have hpw : List.Pairwise
      (fun x y => compositeLe (sortFns.zip dirs) x y = true) [a, b] := by
    simp [hle]
  have h1 : List.Sublist [a, b]
      (stableSort (compositeLe (sortFns.zip dirs)) rows) :=
    sublist_stableSort hsub hpw
  have h2 := h1.map (fun r => Row.mk r.values (sortData sortFns dirs r.subRows))
  rw [show (stableSort (compositeLe (sortFns.zip dirs)) rows).map
        (fun r => Row.mk r.values (sortData sortFns dirs r.subRows)) =
      sortData sortFns dirs rows from (sortData_def sortFns dirs rows).symm] at h2
  simpa using h2

/-- A row equal to its sibling on column `a`, tagged 1. -/
def rowE1 : Row := Row.mk [("a", 5), ("k", 1)] []

/-- A row equal to its sibling on column `a`, tagged 2. -/
def rowE2 : Row := Row.mk [("a", 5), ("k", 2)] []

/-- Witness for claim C10: two rows with equal keys on `a` at positions 1 and 2 keep
that order in the sorted output. -/
theorem stable_composition_witness :
    (∀ fd ∈ fnsA.zip dirsA, fd.1 rowE1 rowE2 = 0) ∧
    List.Sublist
      [Row.mk rowE1.values (sortData fnsA dirsA rowE1.subRows),
        Row.mk rowE2.values (sortData fnsA dirsA rowE2.subRows)]
      (sortData fnsA dirsA [rowE1, rowE2]) := by
  have hp : ∀ fd ∈ fnsA.zip dirsA, fd.1 rowE1 rowE2 = 0 := by
    intro fd hm
    have hfd : fd = (compiledSortFn cmpNum critA, true) := by
      simpa [fnsA, dirsA] using hm
    rw [hfd]
    rfl
  exact ⟨hp, stable_composition fnsA dirsA [rowE1, rowE2] rowE1 rowE2 hp
    (List.Sublist.refl _)⟩

end ReactTable
